import Mathlib

/-!
Verification of the libUncertainty error-propagation library.

The development shallowly embeds the library's headers over the reals:

* `uncertain` embeds `uncertain<double>` from `uncertain.hpp`.
* `Arg` embeds the heterogeneous arguments accepted by the propagator
  (plain exact values, `uncertain<double>` values, and
  `add_id<uncertain<double>>` values); the adapter functions
  `is_uncertain` / `get_nominal` / `get_upper` / `get_id` embed the
  capability-dispatch overloads of `utils.hpp`.
* `basic_error_propagator`'s overloads from `propagate.hpp` are embedded as
  `propagate_error`, `propagate_error_matrix`,
  `propagate_error_and_correlation`, `propagate_error_and_correlation_matrix`
  and `propagate_error_store`.  The hand-generated `_propagate_error`
  arity-1..20 overloads all follow one uniform per-index pattern, embedded
  here as `deviations` over an argument list.
* `correlation_matrix` and `correlation_store` embed `correlation.hpp`;
  the `std::map` backing the store is embedded as an association list with
  in-place overwrite, matching `operator[]` assignment.
* `get_uniq_id` / `add_id` from `utils.hpp` are embedded with an explicit
  counter state.
* `average`, `variance`, `standard_deviation`,
  `standard_error_of_the_mean` embed `statistics.hpp`, and
  `make_uncertain_samples` / `make_uncertain_samples_stdev` embed the
  iterator overloads of `make_uncertain` in `uncertain.hpp`.
-/

namespace LibUncertainty

/-- The `uncertain<NT,UT>` container of `uncertain.hpp`, at `NT = UT = double`,
modelled over the reals: a (nominal, uncertainty) pair. -/
structure uncertain where
  nominal : ℝ
  uncertainty : ℝ

/-- `uncertain::upper()`: `nominal + uncertainty`. -/
def uncertain.upper (u : uncertain) : ℝ := u.nominal + u.uncertainty

/-- `uncertain::lower()`: `nominal - uncertainty`. -/
def uncertain.lower (u : uncertain) : ℝ := u.nominal - u.uncertainty

/-- One argument to the error propagator: a plain exact value, an
`uncertain` value, or an `add_id<uncertain>` value carrying an identity. -/
inductive Arg
  | plain (v : ℝ)
  | unc (u : uncertain)
  | iunc (u : uncertain) (id : ℕ)

/-- `is_uncertain` from `utils.hpp`: true iff the value exposes an
`uncertainty()` accessor.  Plain values do not; `uncertain` and
`add_id<uncertain>` do. -/
def is_uncertain : Arg → Bool
  | .plain _ => false
  | .unc _ => true
  | .iunc _ _ => true

/-- `get_nominal` from `utils.hpp`: `x.nominal()` when available, else `x`. -/
def get_nominal : Arg → ℝ
  | .plain v => v
  | .unc u => u.nominal
  | .iunc u _ => u.nominal

/-- `get_upper` from `utils.hpp`: `x.upper()` when available, else `x`. -/
def get_upper : Arg → ℝ
  | .plain v => v
  | .unc u => u.upper
  | .iunc u _ => u.upper

/-- `get_id` from `utils.hpp`: `x.get_id()` when available, else `0`. -/
def get_id : Arg → ℕ
  | .plain _ => 0
  | .unc _ => 0
  | .iunc _ i => i

/-- The all-nominal argument vector `get_nominal(a_0), ..., get_nominal(a_{N-1})`. -/
def nominals (args : List Arg) : List ℝ := args.map get_nominal

/-- The argument vector with entry `k` replaced by its upper bound:
`get_nominal(a_0), ..., get_upper(a_k), ..., get_nominal(a_{N-1})`. -/
def perturbed (args : List Arg) (k : ℕ) : List ℝ :=
  (List.range args.length).map fun j =>
    if j = k then get_upper (args.getD j (.plain 0))
    else get_nominal (args.getD j (.plain 0))

/-- The deviation computed for argument `k` by `_propagate_error`
(`propagate.hpp`, generated arity overloads): `f(..upper_k..) - nominal`
when the argument is uncertain, and `nominal - nominal` otherwise. -/
def deviation (f : List ℝ → ℝ) (args : List Arg) (k : ℕ) : ℝ :=
  let nominal := f (nominals args)
  if is_uncertain (args.getD k (.plain 0)) then f (perturbed args k) - nominal
  else nominal - nominal

/-- The deviations array filled in by `_propagate_error`. -/
def deviations (f : List ℝ → ℝ) (args : List Arg) : List ℝ :=
  (List.range args.length).map (deviation f args)

/-- `std::inner_product(dev.begin()+1, dev.end(), dev.begin()+1, dev[0]*dev[0])`:
the sum of the squares of the deviations, accumulated from the first element. -/
def sumsq : List ℝ → ℝ
  | [] => 0
  | d :: rest => rest.foldl (fun acc x => acc + x * x) (d * d)

/-- `basic_error_propagator::propagate_error(f, args...)` (no correlation):
nominal from the all-nominal evaluation, uncertainty `sqrt(sum of dev^2)`. -/
noncomputable def propagate_error (f : List ℝ → ℝ) (args : List Arg) : uncertain :=
  ⟨f (nominals args), Real.sqrt (sumsq (deviations f args))⟩

/-- The correlation cross-term double loop shared by the matrix overloads:
`for i; for j in i+1..N-1: sum += 2 * corr(i,j) * dev[i] * dev[j]`. -/
def crossSum (corr : ℕ → ℕ → ℝ) (devs : List ℝ) : ℝ :=
  ∑ i in Finset.range devs.length, ∑ j in Finset.Ioo i devs.length,
    2 * corr i j * devs.getD i 0 * devs.getD j 0

/-- `basic_error_propagator::propagate_error(f, correlation_matrix, args...)`:
uncertainty `sqrt(sum of dev^2 + cross terms)`.  The correlation container is
generic in the source (any type with an `operator()(i,j)`), embedded as a
function on index pairs. -/
noncomputable def propagate_error_matrix (f : List ℝ → ℝ) (corr : ℕ → ℕ → ℝ)
    (args : List Arg) : uncertain :=
  let devs := deviations f args
  ⟨f (nominals args), Real.sqrt (sumsq devs + crossSum corr devs)⟩

/-- `basic_error_propagator::propagate_error_and_correlation(f, args...)`
(no correlation): the result together with the per-input coefficient array
`dev[k] / unc`. -/
noncomputable def propagate_error_and_correlation (f : List ℝ → ℝ)
    (args : List Arg) : uncertain × List ℝ :=
  let devs := deviations f args
  let unc := Real.sqrt (sumsq devs)
  (⟨f (nominals args), unc⟩, devs.map fun d => d / unc)

/-- `basic_error_propagator::propagate_error_and_correlation(f, matrix, args...)`:
coefficient `k` is `(dev[k] + sum_{j != k} corr(k,j) * dev[j]) / unc`. -/
noncomputable def propagate_error_and_correlation_matrix (f : List ℝ → ℝ)
    (corr : ℕ → ℕ → ℝ) (args : List Arg) : uncertain × List ℝ :=
  let devs := deviations f args
  let unc := Real.sqrt (sumsq devs + crossSum corr devs)
  (⟨f (nominals args), unc⟩,
   (List.range devs.length).map fun i =>
     (devs.getD i 0 +
       ∑ j in (Finset.range devs.length).erase i, corr i j * devs.getD j 0) / unc)

section Lemmas

lemma foldl_add_sq (l : List ℝ) (a : ℝ) :
    l.foldl (fun acc x => acc + x * x) a = a + (l.map fun x => x * x).sum := by
  induction l generalizing a with
  | nil => simp
  | cons x xs ih => simp [List.foldl_cons, ih, add_assoc]

lemma sumsq_eq_sum_map (l : List ℝ) : sumsq l = (l.map fun x => x * x).sum := by
  cases l with
  | nil => simp [sumsq]
  | cons d rest => simp [sumsq, foldl_add_sq]

lemma sumsq_eq_finset_sum (l : List ℝ) :
    sumsq l = ∑ k in Finset.range l.length, l.getD k 0 ^ 2 := by
  rw [sumsq_eq_sum_map]
  induction l with
  | nil => simp
  | cons x xs ih =>
      rw [List.map_cons, List.sum_cons, ih, List.length_cons, Finset.sum_range_succ']
      simp [sq, add_comm]

lemma deviations_length (f : List ℝ → ℝ) (args : List Arg) :
    (deviations f args).length = args.length := by
  simp [deviations]

lemma getD_range_map (g : ℕ → ℝ) (n k : ℕ) (hk : k < n) :
    ((List.range n).map g).getD k 0 = g k := by
  simp [List.getD_eq_getElem?_getD, List.getElem?_map]
  rw [List.getElem?_range hk]
  simp

lemma deviations_getD (f : List ℝ → ℝ) (args : List Arg) (k : ℕ)
    (hk : k < args.length) :
    (deviations f args).getD k 0 = deviation f args k :=
  getD_range_map _ _ _ hk

lemma getD_map_div (l : List ℝ) (u : ℝ) (k : ℕ) (hk : k < l.length) :
    (l.map fun d => d / u).getD k 0 = l.getD k 0 / u := by
  simp [List.getD_eq_getElem?_getD, List.getElem?_map,
    List.getElem?_eq_getElem hk]

lemma crossSum_deviations (corr : ℕ → ℕ → ℝ) (f : List ℝ → ℝ)
    (args : List Arg) :
    crossSum corr (deviations f args) =
      ∑ i in Finset.range args.length, ∑ j in Finset.Ioo i args.length,
        2 * corr i j * deviation f args i * deviation f args j := by
  rw [crossSum, deviations_length]
  refine Finset.sum_congr rfl fun i hi => Finset.sum_congr rfl fun j hj => ?_
  rw [deviations_getD f args i (Finset.mem_range.mp hi),
    deviations_getD f args j (Finset.mem_Ioo.mp hj).2]

lemma sumsq_deviations (f : List ℝ → ℝ) (args : List Arg) :
    sumsq (deviations f args) =
      ∑ k in Finset.range args.length, deviation f args k ^ 2 := by
  rw [sumsq_eq_finset_sum, deviations_length]
  refine Finset.sum_congr rfl fun k hk => ?_
  rw [deviations_getD f args k (Finset.mem_range.mp hk)]

end Lemmas

/-- Claim C1: `propagate_error(f, a_0, ..., a_{N-1})` with no correlation
argument returns an uncertain value whose nominal is `f` at the nominals of
all arguments and whose uncertainty is `sqrt(sum_k deviation[k]^2)`, where
`deviation[k]` is the upper-bound perturbation difference for uncertain
arguments and the additive identity `nominal - nominal` for exact ones; in
particular `f(a,b) = a + b` with exact `a = 2` and uncertain `b = (2, 0.1)`
propagates to nominal `4` and uncertainty `0.1` exactly. -/
theorem C1_propagate_error_no_correlation :
    (∀ (f : List ℝ → ℝ) (args : List Arg), 0 < args.length →
      propagate_error f args =
        ⟨f (nominals args),
         Real.sqrt (∑ k in Finset.range args.length,
           (if is_uncertain (args.getD k (.plain 0)) then
              f (perturbed args k) - f (nominals args)
            else f (nominals args) - f (nominals args)) ^ 2)⟩) ∧
    propagate_error (fun xs => xs.getD 0 0 + xs.getD 1 0)
        [Arg.plain 2, Arg.unc ⟨2, 1/10⟩] = ⟨4, 1/10⟩ := by
  constructor
  · intro f args _
    rw [propagate_error, sumsq_deviations]
    rfl
  · rw [propagate_error, sumsq_deviations]
    have d0 : deviation (fun xs => xs.getD 0 0 + xs.getD 1 0)
        [Arg.plain 2, Arg.unc ⟨2, 1/10⟩] 0 = 0 := by
      simp [deviation, is_uncertain]
    have d1 : deviation (fun xs => xs.getD 0 0 + xs.getD 1 0)
        [Arg.plain 2, Arg.unc ⟨2, 1/10⟩] 1 = 1/10 := by
      norm_num [deviation, nominals, perturbed, is_uncertain, get_nominal,
        get_upper, uncertain.upper, List.range_succ]
    have hs : ∑ k in Finset.range
        ([Arg.plain 2, Arg.unc ⟨2, 1/10⟩] : List Arg).length,
        deviation (fun xs => xs.getD 0 0 + xs.getD 1 0)
          [Arg.plain 2, Arg.unc ⟨2, 1/10⟩] k ^ 2 = (1/10 : ℝ) ^ 2 := by
      rw [List.length_cons, List.length_cons, List.length_nil,
        Finset.sum_range_succ, Finset.sum_range_succ, Finset.sum_range_zero,
        d0, d1]
      norm_num
    rw [hs, Real.sqrt_sq (by norm_num : (0:ℝ) ≤ 1/10)]
    simp only [uncertain.mk.injEq]
    refine ⟨?_, trivial⟩
    norm_num [nominals, get_nominal]

/-- Witness for C1 at a concrete input: the general formula applied to a
single uncertain argument. -/
theorem C1_propagate_error_no_correlation_witness :
    0 < ([Arg.unc ⟨1, 1/2⟩] : List Arg).length ∧
      propagate_error (fun xs => xs.getD 0 0) [Arg.unc ⟨1, 1/2⟩] =
        ⟨(fun xs => xs.getD 0 0) (nominals [Arg.unc ⟨1, 1/2⟩]),
         Real.sqrt (∑ k in Finset.range ([Arg.unc ⟨1, 1/2⟩] : List Arg).length,
           (if is_uncertain (([Arg.unc ⟨1, 1/2⟩] : List Arg).getD k (.plain 0)) then
              (fun xs => xs.getD 0 0) (perturbed [Arg.unc ⟨1, 1/2⟩] k) -
                (fun xs => xs.getD 0 0) (nominals [Arg.unc ⟨1, 1/2⟩])
            else (fun xs => xs.getD 0 0) (nominals [Arg.unc ⟨1, 1/2⟩]) -
                (fun xs => xs.getD 0 0) (nominals [Arg.unc ⟨1, 1/2⟩])) ^ 2)⟩ :=
  ⟨by simp, C1_propagate_error_no_correlation.1 _ _ (by simp)⟩

/-- Claim C2: `propagate_error(f, m, args...)` with a correlation matrix
returns uncertainty
`sqrt(sum_k dev[k]^2 + sum_{i<j} 2 * m(i,j) * dev[i] * dev[j])`; in
particular `f(a,b) = b - a` on `(2, 0.1)` and `(3, 0.1)` with correlation
coefficient `1` propagates to nominal `1` and uncertainty `0`. -/
theorem C2_propagate_error_matrix :
    (∀ (f : List ℝ → ℝ) (corr : ℕ → ℕ → ℝ) (args : List Arg),
      0 < args.length →
      propagate_error_matrix f corr args =
        ⟨f (nominals args),
         Real.sqrt ((∑ k in Finset.range args.length, deviation f args k ^ 2) +
           ∑ i in Finset.range args.length, ∑ j in Finset.Ioo i args.length,
             2 * corr i j * deviation f args i * deviation f args j)⟩) ∧
    propagate_error_matrix (fun xs => xs.getD 1 0 - xs.getD 0 0)
        (fun _ _ => 1) [Arg.unc ⟨2, 1/10⟩, Arg.unc ⟨3, 1/10⟩] = ⟨1, 0⟩ := by
  constructor
  · intro f corr args _
    rw [propagate_error_matrix, sumsq_deviations, crossSum_deviations]
  · rw [propagate_error_matrix, sumsq_deviations, crossSum_deviations]
    have d0 : deviation (fun xs => xs.getD 1 0 - xs.getD 0 0)
        [Arg.unc ⟨2, 1/10⟩, Arg.unc ⟨3, 1/10⟩] 0 = -(1/10) := by
      norm_num [deviation, nominals, perturbed, is_uncertain, get_nominal,
        get_upper, uncertain.upper, List.range_succ]
    have d1 : deviation (fun xs => xs.getD 1 0 - xs.getD 0 0)
        [Arg.unc ⟨2, 1/10⟩, Arg.unc ⟨3, 1/10⟩] 1 = 1/10 := by
      norm_num [deviation, nominals, perturbed, is_uncertain, get_nominal,
        get_upper, uncertain.upper, List.range_succ]
    have hIoo0 : Finset.Ioo 0 2 = ({1} : Finset ℕ) := by decide
    have hIoo1 : Finset.Ioo 1 2 = (∅ : Finset ℕ) := by decide
    have hs : ((∑ k in Finset.range
        ([Arg.unc ⟨2, 1/10⟩, Arg.unc ⟨3, 1/10⟩] : List Arg).length,
          deviation (fun xs => xs.getD 1 0 - xs.getD 0 0)
            [Arg.unc ⟨2, 1/10⟩, Arg.unc ⟨3, 1/10⟩] k ^ 2) +
        ∑ i in Finset.range
          ([Arg.unc ⟨2, 1/10⟩, Arg.unc ⟨3, 1/10⟩] : List Arg).length,
          ∑ j in Finset.Ioo i
            ([Arg.unc ⟨2, 1/10⟩, Arg.unc ⟨3, 1/10⟩] : List Arg).length,
            2 * (1:ℝ) * deviation (fun xs => xs.getD 1 0 - xs.getD 0 0)
              [Arg.unc ⟨2, 1/10⟩, Arg.unc ⟨3, 1/10⟩] i *
              deviation (fun xs => xs.getD 1 0 - xs.getD 0 0)
                [Arg.unc ⟨2, 1/10⟩, Arg.unc ⟨3, 1/10⟩] j) = 0 := by
      rw [List.length_cons, List.length_cons, List.length_nil,
        Finset.sum_range_succ, Finset.sum_range_succ, Finset.sum_range_zero,
        Finset.sum_range_succ, Finset.sum_range_succ, Finset.sum_range_zero,
        hIoo0, hIoo1, Finset.sum_singleton, Finset.sum_empty, d0, d1]
      norm_num
    rw [hs, Real.sqrt_zero]
    simp only [uncertain.mk.injEq]
    refine ⟨?_, trivial⟩
    norm_num [nominals, get_nominal]

/-- Witness for C2 at a concrete input: the general formula applied to a
single uncertain argument with the zero correlation function. -/
theorem C2_propagate_error_matrix_witness :
    0 < ([Arg.unc ⟨1, 1/2⟩] : List Arg).length ∧
      propagate_error_matrix (fun xs => xs.getD 0 0) (fun _ _ => 0)
          [Arg.unc ⟨1, 1/2⟩] =
        ⟨(fun xs => xs.getD 0 0) (nominals [Arg.unc ⟨1, 1/2⟩]),
         Real.sqrt ((∑ k in Finset.range ([Arg.unc ⟨1, 1/2⟩] : List Arg).length,
             deviation (fun xs => xs.getD 0 0) [Arg.unc ⟨1, 1/2⟩] k ^ 2) +
           ∑ i in Finset.range ([Arg.unc ⟨1, 1/2⟩] : List Arg).length,
             ∑ j in Finset.Ioo i ([Arg.unc ⟨1, 1/2⟩] : List Arg).length,
               2 * (0:ℝ) * deviation (fun xs => xs.getD 0 0) [Arg.unc ⟨1, 1/2⟩] i *
                 deviation (fun xs => xs.getD 0 0) [Arg.unc ⟨1, 1/2⟩] j)⟩ :=
  ⟨by simp, C2_propagate_error_matrix.1 _ _ _ (by simp)⟩

/-- Claim C4: `propagate_error_and_correlation` returns a coefficient array
of length `N` whose entry `k` is `dev[k] / unc` in the overload without a
correlation argument, and
`(dev[k] + sum_{j != k} matrix(k,j) * dev[j]) / unc` in the matrix
overload, provided the combined uncertainty is nonzero. -/
theorem C4_propagate_error_and_correlation_coefficients :
    (∀ (f : List ℝ → ℝ) (args : List Arg), 0 < args.length →
      Real.sqrt (sumsq (deviations f args)) ≠ 0 →
      (propagate_error_and_correlation f args).2.length = args.length ∧
      ∀ k < args.length,
        (propagate_error_and_correlation f args).2.getD k 0 =
          deviation f args k /
            (propagate_error_and_correlation f args).1.uncertainty) ∧
    (∀ (f : List ℝ → ℝ) (corr : ℕ → ℕ → ℝ) (args : List Arg),
      0 < args.length →
      Real.sqrt (sumsq (deviations f args) +
        crossSum corr (deviations f args)) ≠ 0 →
      (propagate_error_and_correlation_matrix f corr args).2.length =
        args.length ∧
      ∀ k < args.length,
        (propagate_error_and_correlation_matrix f corr args).2.getD k 0 =
          (deviation f args k + ∑ j in (Finset.range args.length).erase k,
            corr k j * deviation f args j) /
            (propagate_error_and_correlation_matrix f corr args).1.uncertainty) := by
  constructor
  · intro f args _ _
    constructor
    · simp [propagate_error_and_correlation, deviations_length]
    · intro k hk
      have hk' : k < (deviations f args).length := by
        rw [deviations_length]; exact hk
      rw [propagate_error_and_correlation]
      simp only
      rw [getD_map_div _ _ _ hk', deviations_getD f args k hk]
  · intro f corr args _ _
    constructor
    · simp [propagate_error_and_correlation_matrix, deviations_length]
    · intro k hk
      rw [propagate_error_and_correlation_matrix]
      simp only
      rw [deviations_length, getD_range_map _ _ _ hk]
      congr 1
      rw [deviations_getD f args k hk]
      congr 1
      refine Finset.sum_congr rfl fun j hj => ?_
      rw [deviations_getD f args j
        (Finset.mem_range.mp (Finset.mem_of_mem_erase hj))]

/-- Witness for C4 at a concrete input: a single uncertain argument whose
combined uncertainty is `sqrt(1/4) != 0`. -/
theorem C4_propagate_error_and_correlation_coefficients_witness :
    0 < ([Arg.unc ⟨1, 1/2⟩] : List Arg).length ∧
    Real.sqrt (sumsq (deviations (fun xs => xs.getD 0 0)
      [Arg.unc ⟨1, 1/2⟩])) ≠ 0 ∧
    ((propagate_error_and_correlation (fun xs => xs.getD 0 0)
        [Arg.unc ⟨1, 1/2⟩]).2.length =
      ([Arg.unc ⟨1, 1/2⟩] : List Arg).length ∧
     ∀ k < ([Arg.unc ⟨1, 1/2⟩] : List Arg).length,
       (propagate_error_and_correlation (fun xs => xs.getD 0 0)
         [Arg.unc ⟨1, 1/2⟩]).2.getD k 0 =
         deviation (fun xs => xs.getD 0 0) [Arg.unc ⟨1, 1/2⟩] k /
           (propagate_error_and_correlation (fun xs => xs.getD 0 0)
             [Arg.unc ⟨1, 1/2⟩]).1.uncertainty) := by
  have hsq : sumsq (deviations (fun xs : List ℝ => xs.getD 0 0)
      [Arg.unc ⟨1, 1/2⟩]) = 1/4 := by
    norm_num [deviations, deviation, sumsq, nominals, perturbed, is_uncertain,
      get_nominal, get_upper, uncertain.upper, List.range_succ]
  have hne : Real.sqrt (sumsq (deviations (fun xs : List ℝ => xs.getD 0 0)
      [Arg.unc ⟨1, 1/2⟩])) ≠ 0 := by
    rw [hsq]
    exact ne_of_gt (Real.sqrt_pos.mpr (by norm_num))
  exact ⟨by simp, hne,
    C4_propagate_error_and_correlation_coefficients.1 _ _ (by simp) hne⟩

/-- `correlation_matrix<T>::compute_storage_size(N)`: `1 + N*(N-1)/2`. -/
def compute_storage_size (N : ℕ) : ℕ := 1 + N * (N - 1) / 2

/-- `correlation_matrix<double>` from `correlation.hpp`: a flat element
vector; the diagonal is stored in the last cell. -/
structure correlation_matrix where
  m_elements : List ℝ

/-- `correlation_matrix::compute_index(i,j)`: the last cell for diagonal
indices, `i + j - 1` otherwise. -/
def correlation_matrix.compute_index (m : correlation_matrix) (i j : ℕ) : ℕ :=
  if i = j then m.m_elements.length - 1 else i + j - 1

/-- The `correlation_matrix(N)` constructor: all cells zero except the last,
which holds `1`. -/
def correlation_matrix.init (N : ℕ) : correlation_matrix :=
  ⟨List.replicate (compute_storage_size N - 1) (0:ℝ) ++ [1]⟩

/-- `correlation_matrix::operator()(i,j)` (read). -/
def correlation_matrix.get (m : correlation_matrix) (i j : ℕ) : ℝ :=
  m.m_elements.getD (m.compute_index i j) 0

/-- Assignment through `correlation_matrix::operator()(i,j)` (write). -/
def correlation_matrix.write (m : correlation_matrix) (i j : ℕ) (v : ℝ) :
    correlation_matrix :=
  ⟨m.m_elements.set (m.compute_index i j) v⟩

/-- A sequence of writes through `operator()(i,j)`, applied left to right. -/
def applyWrites (m : correlation_matrix) : List (ℕ × ℕ × ℝ) → correlation_matrix
  | [] => m
  | w :: rest => applyWrites (m.write w.1 w.2.1 w.2.2) rest

section MatrixLemmas

lemma getD_set_ne (l : List ℝ) (n m : ℕ) (v : ℝ) (h : n ≠ m) :
    (l.set n v).getD m 0 = l.getD m 0 := by
  induction l generalizing n m with
  | nil => simp
  | cons x xs ih =>
      cases n with
      | zero =>
          cases m with
          | zero => omega
          | succ m => simp
      | succ n =>
          cases m with
          | zero => simp
          | succ m => simpa using ih n m (by omega)

lemma getD_set_eq (l : List ℝ) (n : ℕ) (v : ℝ) (h : n < l.length) :
    (l.set n v).getD n 0 = v := by
  induction l generalizing n with
  | nil => simp at h
  | cons x xs ih =>
      cases n with
      | zero => simp
      | succ n => simpa using ih n (by simpa using h)

lemma off_diag_index_lt {N i j : ℕ} (hi : i < N) (hj : j < N) (hne : i ≠ j) :
    i + j - 1 < N * (N - 1) / 2 := by
  obtain ⟨M, rfl⟩ : ∃ M, N = M + 2 := ⟨N - 2, by omega⟩
  have hsub : M + 2 - 1 = M + 1 := by omega
  have hprod : (M + 2) * (M + 2 - 1) = (M + 1) * (M + 2) := by
    rw [hsub]; ring
  have hdvd : 2 ∣ (M + 2) * (M + 2 - 1) := by
    have heven : Even ((M + 1) * (M + 2)) := Nat.even_mul_succ_self (M + 1)
    rw [hprod]
    exact heven.two_dvd
  rw [Nat.lt_div_iff_mul_lt hdvd, hprod]
  have hij : i + j ≤ 2 * M + 1 := by omega
  have hexp : (M + 1) * (M + 2) = M * M + 3 * M + 2 := by ring
  rcases Nat.eq_zero_or_pos M with hM | hM
  · subst hM; omega
  · have hMM : M ≤ M * M := Nat.le_mul_of_pos_left M hM
    omega

lemma applyWrites_m_elements_length (ws : List (ℕ × ℕ × ℝ))
    (m : correlation_matrix) :
    (applyWrites m ws).m_elements.length = m.m_elements.length := by
  induction ws generalizing m with
  | nil => rfl
  | cons w rest ih =>
      rw [applyWrites, ih]
      simp [correlation_matrix.write]

lemma applyWrites_diag_cell (N : ℕ) (ws : List (ℕ × ℕ × ℝ))
    (m : correlation_matrix)
    (hlen : m.m_elements.length = compute_storage_size N)
    (hws : ∀ w ∈ ws, w.1 < N ∧ w.2.1 < N ∧ w.1 ≠ w.2.1) :
    (applyWrites m ws).m_elements.getD (compute_storage_size N - 1) 0 =
      m.m_elements.getD (compute_storage_size N - 1) 0 := by
  induction ws generalizing m with
  | nil => rfl
  | cons w rest ih =>
      obtain ⟨h1, h2, h3⟩ := hws w (List.mem_cons_self _ _)
      have hidx : w.1 + w.2.1 - 1 < N * (N - 1) / 2 :=
        off_diag_index_lt h1 h2 h3
      rw [applyWrites, ih _ (by simp [correlation_matrix.write, hlen])
        (fun x hx => hws x (List.mem_cons_of_mem _ hx))]
      rw [correlation_matrix.write, correlation_matrix.compute_index]
      simp only [if_neg h3]
      exact getD_set_ne _ _ _ _ (by simp [compute_storage_size] at hidx ⊢; omega)

lemma replicate_append_getD (n : ℕ) (b : ℝ) :
    (List.replicate n (0:ℝ) ++ [b]).getD n 0 = b := by
  induction n with
  | zero => rfl
  | succ n ih => rw [List.replicate_succ, List.cons_append, List.getD_cons_succ, ih]

lemma init_m_elements_length (N : ℕ) :
    (correlation_matrix.init N).m_elements.length = compute_storage_size N := by
  simp [correlation_matrix.init, compute_storage_size]
  omega

end MatrixLemmas

/-- Claim C6: after constructing a correlation matrix of size `N` and
performing any sequence of valid off-diagonal writes, reading `matrix(i,i)`
returns `1` and `matrix(i,j)` equals `matrix(j,i)`. -/
theorem C6_correlation_matrix_diagonal_and_symmetry :
    ∀ (N : ℕ) (ws : List (ℕ × ℕ × ℝ)) (i j : ℕ),
      (∀ w ∈ ws, w.1 < N ∧ w.2.1 < N ∧ w.1 ≠ w.2.1) → i < N → j < N →
      (applyWrites (correlation_matrix.init N) ws).get i i = 1 ∧
      (applyWrites (correlation_matrix.init N) ws).get i j =
        (applyWrites (correlation_matrix.init N) ws).get j i := by
  intro N ws i j hws _ _
  constructor
  · rw [correlation_matrix.get, correlation_matrix.compute_index, if_pos rfl,
      applyWrites_m_elements_length, init_m_elements_length,
      applyWrites_diag_cell N ws _ (init_m_elements_length N) hws,
      correlation_matrix.init]
    have h1 : compute_storage_size N - 1 =
        (List.replicate (compute_storage_size N - 1) (0:ℝ)).length := by simp
    exact replicate_append_getD _ 1
  · by_cases h : i = j
    · subst h; rfl
    · rw [correlation_matrix.get, correlation_matrix.get,
        correlation_matrix.compute_index, correlation_matrix.compute_index,
        if_neg h, if_neg (Ne.symm h), Nat.add_comm]

/-- Witness for C6: a 3×3 matrix, one off-diagonal write, indices 1 and 2. -/
theorem C6_correlation_matrix_diagonal_and_symmetry_witness :
    (∀ w ∈ ([(0, 1, (1/2 : ℝ))] : List (ℕ × ℕ × ℝ)),
      w.1 < 3 ∧ w.2.1 < 3 ∧ w.1 ≠ w.2.1) ∧ 1 < 3 ∧ 2 < 3 ∧
    ((applyWrites (correlation_matrix.init 3) [(0, 1, (1/2 : ℝ))]).get 1 1 = 1 ∧
     (applyWrites (correlation_matrix.init 3) [(0, 1, (1/2 : ℝ))]).get 1 2 =
       (applyWrites (correlation_matrix.init 3) [(0, 1, (1/2 : ℝ))]).get 2 1) := by
  have hws : ∀ w ∈ ([(0, 1, (1/2 : ℝ))] : List (ℕ × ℕ × ℝ)),
      w.1 < 3 ∧ w.2.1 < 3 ∧ w.1 ≠ w.2.1 := by
    intro w hw
    simp only [List.mem_singleton] at hw
    subst hw
    norm_num
  exact ⟨hws, by norm_num, by norm_num,
    C6_correlation_matrix_diagonal_and_symmetry 3 _ 1 2 hws
      (by norm_num) (by norm_num)⟩

/-- Counterexample to claim C7 as stated: in a 4×4 matrix the distinct
off-diagonal pairs `{0,3}` and `{1,2}` share the storage cell `0+3-1 = 1+2-1`,
so writing `matrix(0,3)` changes the value read at `matrix(1,2)` from its
prior value `0` to the written coefficient. -/
theorem C7_counterexample_write_aliases_distinct_pair :
    ((correlation_matrix.init 4).write 0 3 (1/2)).get 1 2 = 1/2 ∧
    (correlation_matrix.init 4).get 1 2 = 0 ∧
    ((correlation_matrix.init 4).write 0 3 (1/2)).get 1 2 ≠
      (correlation_matrix.init 4).get 1 2 := by
  have h1 : ((correlation_matrix.init 4).write 0 3 (1/2)).get 1 2 = 1/2 := by
    norm_num [correlation_matrix.init, correlation_matrix.write,
      correlation_matrix.get, correlation_matrix.compute_index,
      compute_storage_size, List.replicate]
  have h2 : (correlation_matrix.init 4).get 1 2 = 0 := by
    norm_num [correlation_matrix.init, correlation_matrix.get,
      correlation_matrix.compute_index, compute_storage_size, List.replicate]
  exact ⟨h1, h2, by rw [h1, h2]; norm_num⟩

/-- Claim C7, amended: the storage cell of an off-diagonal pair `{i,j}` is
determined by the index sum `i + j` (cell `i + j - 1`), so after writing
`matrix(i,j)`, reading an off-diagonal pair `{k,l}` returns the written
coefficient when `k + l = i + j` and the value that pair held before the
write when `k + l ≠ i + j`. -/
theorem C7_amended_write_aliases_by_index_sum :
    ∀ (N : ℕ) (m : correlation_matrix) (i j k l : ℕ) (v : ℝ),
      m.m_elements.length = compute_storage_size N →
      i < N → j < N → k < N → l < N → i ≠ j → k ≠ l →
      ((k + l = i + j → (m.write i j v).get k l = v) ∧
       (k + l ≠ i + j → (m.write i j v).get k l = m.get k l)) := by
  intro N m i j k l v hlen hi hj hk hl hij hkl
  have hidx : i + j - 1 < N * (N - 1) / 2 := off_diag_index_lt hi hj hij
  have hlt : i + j - 1 < m.m_elements.length := by
    rw [hlen]; simp only [compute_storage_size]; omega
  constructor
  · intro hsum
    have heq : k + l - 1 = i + j - 1 := by omega
    simp only [correlation_matrix.get, correlation_matrix.write,
      correlation_matrix.compute_index, if_neg hkl, if_neg hij, heq]
    exact getD_set_eq _ _ _ hlt
  · intro hsum
    have hne2 : i + j - 1 ≠ k + l - 1 := by omega
    simp only [correlation_matrix.get, correlation_matrix.write,
      correlation_matrix.compute_index, if_neg hkl, if_neg hij]
    exact getD_set_ne _ _ _ _ hne2

/-- Witness for the amended C7: the 4×4 aliasing pair `{0,3}` / `{1,2}` and
the non-aliasing pair `{0,1}`. -/
theorem C7_amended_write_aliases_by_index_sum_witness :
    (correlation_matrix.init 4).m_elements.length = compute_storage_size 4 ∧
    ((1 + 2 = 0 + 3 →
      ((correlation_matrix.init 4).write 0 3 (1/2)).get 1 2 = 1/2) ∧
     (1 + 2 ≠ 0 + 3 →
      ((correlation_matrix.init 4).write 0 3 (1/2)).get 1 2 =
        (correlation_matrix.init 4).get 1 2)) :=
  ⟨init_m_elements_length 4,
   C7_amended_write_aliases_by_index_sum 4 _ 0 3 1 2 _
     (init_m_elements_length 4) (by norm_num) (by norm_num) (by norm_num)
     (by norm_num) (by norm_num) (by norm_num)⟩

/-- The error thrown by `correlation_store::add_with_ids` when the key pair
already exists (`std::runtime_error`, the DuplicateEntry condition). -/
inductive store_error
  | duplicateEntry
deriving DecidableEq

/-- `correlation_store::make_key(id1,id2)`: the pair sorted ascending. -/
def make_key (id1 id2 : ℕ) : ℕ × ℕ :=
  if id1 > id2 then (id2, id1) else (id1, id2)

/-- Key lookup in the `std::map` backing the store, embedded over an
association list. -/
def lookupKey : List ((ℕ × ℕ) × ℝ) → ℕ × ℕ → Option ℝ
  | [], _ => none
  | e :: rest, key => if e.1 = key then some e.2 else lookupKey rest key

/-- `std::map::operator[]` assignment: overwrite the existing binding in
place, or append a new one. -/
def insertPair : List ((ℕ × ℕ) × ℝ) → ℕ × ℕ → ℝ → List ((ℕ × ℕ) × ℝ)
  | [], key, v => [(key, v)]
  | e :: rest, key, v =>
      if e.1 = key then (key, v) :: rest else e :: insertPair rest key v

/-- `correlation_store<double>` from `correlation.hpp`. -/
structure correlation_store where
  m_correlation_coefficients : List ((ℕ × ℕ) × ℝ)

/-- `correlation_store::set_with_ids`: insert or overwrite unconditionally. -/
def correlation_store.set_with_ids (s : correlation_store) (id1 id2 : ℕ)
    (v : ℝ) : correlation_store :=
  ⟨insertPair s.m_correlation_coefficients (make_key id1 id2) v⟩

/-- `correlation_store::add_with_ids`: fail with DuplicateEntry when the
canonicalized key is present, else insert. -/
def correlation_store.add_with_ids (s : correlation_store) (id1 id2 : ℕ)
    (v : ℝ) : Except store_error correlation_store :=
  if (lookupKey s.m_correlation_coefficients (make_key id1 id2)).isSome then
    .error .duplicateEntry
  else .ok ⟨insertPair s.m_correlation_coefficients (make_key id1 id2) v⟩

/-- `correlation_store::get_with_ids`: the stored value, or zero when the
key is absent. -/
def correlation_store.get_with_ids (s : correlation_store) (id1 id2 : ℕ) : ℝ :=
  (lookupKey s.m_correlation_coefficients (make_key id1 id2)).getD 0

section StoreLemmas

lemma make_key_comm (a b : ℕ) : make_key a b = make_key b a := by
  rcases lt_trichotomy a b with h | h | h
  · rw [make_key, make_key, if_neg (by omega), if_pos (by omega)]
  · subst h; rfl
  · rw [make_key, make_key, if_pos (by omega), if_neg (by omega)]

lemma lookupKey_insertPair (l : List ((ℕ × ℕ) × ℝ)) (key q : ℕ × ℕ) (v : ℝ) :
    lookupKey (insertPair l key v) q =
      if q = key then some v else lookupKey l q := by
  induction l with
  | nil =>
      by_cases h : q = key
      · simp [insertPair, lookupKey, h]
      · simp [insertPair, lookupKey, h, Ne.symm h]
  | cons e rest ih =>
      by_cases he : e.1 = key
      · by_cases hq : q = key
        · simp [insertPair, lookupKey, he, hq]
        · simp [insertPair, lookupKey, he, hq, Ne.symm hq]
      · by_cases hq : e.1 = q
        · have hqk : ¬q = key := fun hh => he (hq.trans hh)
          simp [insertPair, lookupKey, he, hq, hqk]
        · simp [insertPair, lookupKey, he, hq, ih]

end StoreLemmas

/-- Claim C5: `add` fails with DuplicateEntry exactly when the unordered
pair is already present (in either argument order) and inserts otherwise;
`set` inserts or overwrites unconditionally; `get` returns the stored value,
zero when absent, and is symmetric in argument order. -/
theorem C5_correlation_store_semantics :
    ∀ (s : correlation_store) (id1 id2 : ℕ) (v w : ℝ),
      ((lookupKey s.m_correlation_coefficients (make_key id1 id2)).isSome =
          true →
        s.add_with_ids id1 id2 v = .error .duplicateEntry) ∧
      (lookupKey s.m_correlation_coefficients (make_key id1 id2) = none →
        s.add_with_ids id1 id2 v = .ok (s.set_with_ids id1 id2 v)) ∧
      (s.set_with_ids id1 id2 v).add_with_ids id2 id1 w =
        .error .duplicateEntry ∧
      (s.set_with_ids id1 id2 v).get_with_ids id1 id2 = v ∧
      (lookupKey s.m_correlation_coefficients (make_key id1 id2) = none →
        s.get_with_ids id1 id2 = 0) ∧
      s.get_with_ids id1 id2 = s.get_with_ids id2 id1 ∧
      (s.set_with_ids id1 id2 v).get_with_ids id2 id1 = v := by
  intro s id1 id2 v w
  refine ⟨?_, ?_, ?_, ?_, ?_, ?_, ?_⟩
  · intro h
    rw [correlation_store.add_with_ids, if_pos h]
  · intro h
    rw [correlation_store.add_with_ids, if_neg (by rw [h]; simp)]
    rfl
  · rw [correlation_store.add_with_ids, correlation_store.set_with_ids]
    rw [if_pos ?_]
    simp only
    rw [make_key_comm id2 id1, lookupKey_insertPair, if_pos rfl]
    rfl
  · rw [correlation_store.get_with_ids, correlation_store.set_with_ids]
    simp only
    rw [lookupKey_insertPair, if_pos rfl]
    rfl
  · intro h
    rw [correlation_store.get_with_ids, h]
    rfl
  · rw [correlation_store.get_with_ids, correlation_store.get_with_ids,
      make_key_comm]
  · rw [correlation_store.get_with_ids, correlation_store.set_with_ids]
    simp only
    rw [make_key_comm id2 id1, lookupKey_insertPair, if_pos rfl]
    rfl

/-- Witness for C5 at concrete stores: a store already holding the pair
`{1,2}` for the duplicate case, and the empty store for the insert, absent
and symmetry cases. -/
theorem C5_correlation_store_semantics_witness :
    (lookupKey ([((1, 2), (1/10 : ℝ))]) (make_key 1 2)).isSome = true ∧
    correlation_store.add_with_ids ⟨[((1, 2), (1/10 : ℝ))]⟩ 1 2 (1/2) =
      .error .duplicateEntry ∧
    lookupKey ([] : List ((ℕ × ℕ) × ℝ)) (make_key 1 2) = none ∧
    correlation_store.add_with_ids ⟨[]⟩ 1 2 (1/10) =
      .ok (correlation_store.set_with_ids ⟨[]⟩ 1 2 (1/10)) ∧
    correlation_store.get_with_ids ⟨[]⟩ 1 2 = 0 := by
  have h1 := (C5_correlation_store_semantics ⟨[((1, 2), (1/10 : ℝ))]⟩
    1 2 (1/2) 0).1
  have h2 := (C5_correlation_store_semantics ⟨[]⟩ 1 2 (1/10) 0).2.1
  have h5 := (C5_correlation_store_semantics ⟨[]⟩ 1 2 (1/10) 0).2.2.2.2.1
  exact ⟨rfl, h1 rfl, rfl, h2 rfl, h5 rfl⟩

/-- `get_uniq_id()` from `utils.hpp`, with the static counter made explicit:
`return ++id` yields the incremented counter as both the minted id and the
new counter state. -/
def get_uniq_id (c : ℕ) : ℕ × ℕ := (c + 1, c + 1)

/-- The ids minted by `n` successive `get_uniq_id()` calls starting from
counter state `c`. -/
def mintIds (c : ℕ) : ℕ → List ℕ
  | 0 => []
  | n + 1 => (get_uniq_id c).1 :: mintIds (get_uniq_id c).2 n

/-- `add_id<uncertain<double>>` from `utils.hpp`: the base value plus the
`id` member. -/
structure add_id_uncertain where
  base : uncertain
  id : ℕ

/-- Construction of an `add_id` value: the `id` member is initialized from
`get_uniq_id()`. -/
def make_add_id (u : uncertain) (c : ℕ) : add_id_uncertain × ℕ :=
  ((⟨u, (get_uniq_id c).1⟩ : add_id_uncertain), (get_uniq_id c).2)

/-- The implicitly defaulted copy constructor of `add_id`: copies both the
base value and the `id` member. -/
def add_id_uncertain.copy (x : add_id_uncertain) : add_id_uncertain :=
  ⟨x.base, x.id⟩

/-- `add_id::clear_id()`: sets the id to the reserved value 0. -/
def add_id_uncertain.clear_id (x : add_id_uncertain) : add_id_uncertain :=
  ⟨x.base, 0⟩

section IdLemmas

lemma mintIds_eq (c n : ℕ) :
    mintIds c n = (List.range n).map fun k => c + k + 1 := by
  induction n generalizing c with
  | zero => rfl
  | succ n ih =>
      have hf : (fun k => c + 1 + k + 1) = ((fun k => c + k + 1) ∘ Nat.succ) := by
        funext k
        simp only [Function.comp]
        omega
      rw [mintIds, ih, List.range_succ_eq_map, List.map_cons, List.map_map]
      simp only [get_uniq_id]
      rw [hf]

end IdLemmas

/-- Claim C8: every id minted by the counter is strictly positive and
distinct from every previously minted id (all ids minted after counter
state `c` exceed `c` and are pairwise distinct); copying an
identity-carrying value propagates the same id, and `clear_id` sets the id
to the reserved value 0. -/
theorem C8_unique_identities :
    (∀ c n : ℕ, (∀ x ∈ mintIds c n, 0 < x ∧ c < x) ∧ (mintIds c n).Nodup) ∧
    (∀ (u : uncertain) (c : ℕ), (make_add_id u c).1.id = c + 1) ∧
    (∀ x : add_id_uncertain, x.copy.id = x.id) ∧
    (∀ x : add_id_uncertain, x.clear_id.id = 0) := by
  refine ⟨fun c n => ⟨?_, ?_⟩, fun u c => rfl, fun x => rfl, fun x => rfl⟩
  · intro x hx
    rw [mintIds_eq] at hx
    simp only [List.mem_map, List.mem_range] at hx
    obtain ⟨k, _, rfl⟩ := hx
    omega
  · rw [mintIds_eq]
    exact (List.nodup_range n).map fun a b h => by omega

/-- `average(begin,end)` from `statistics.hpp`: the accumulated sum divided
by the element count. -/
noncomputable def average (xs : List ℝ) : ℝ := xs.sum / xs.length

/-- `variance(begin,end,dof)` from `statistics.hpp`: the accumulated squared
deviations from the mean, divided by `N - dof` (size_t arithmetic). -/
noncomputable def variance (xs : List ℝ) (dof : ℕ) : ℝ :=
  (xs.map fun x => (x - average xs) * (x - average xs)).sum /
    ((xs.length - dof : ℕ) : ℝ)

/-- `standard_deviation(begin,end,dof)`: the square root of the variance. -/
noncomputable def standard_deviation (xs : List ℝ) (dof : ℕ) : ℝ :=
  Real.sqrt (variance xs dof)

/-- `standard_error_of_the_mean(begin,end)`: the standard deviation with one
degree-of-freedom reduction divided by `sqrt(N)`. -/
noncomputable def standard_error_of_the_mean (xs : List ℝ) : ℝ :=
  standard_deviation xs 1 / Real.sqrt xs.length

/-- The iterator overload `make_uncertain(begin,end)` of `uncertain.hpp`:
nominal from `average`, uncertainty from `standard_error_of_the_mean`. -/
noncomputable def make_uncertain_samples (xs : List ℝ) : uncertain :=
  ⟨average xs, standard_error_of_the_mean xs⟩

/-- The iterator overload
`make_uncertain(begin,end,tags::use_stdev_for_error)`: nominal from
`average`, uncertainty from `standard_deviation` at its default
one-degree-of-freedom reduction. -/
noncomputable def make_uncertain_samples_stdev (xs : List ℝ) : uncertain :=
  ⟨average xs, standard_deviation xs 1⟩

/-- Claim C9: constructing an uncertain value from a non-empty sample
sequence yields nominal equal to the sample mean; the default mode's
uncertainty is the one-degree-of-freedom standard deviation divided by
`sqrt(N)` (the standard error of the mean), and the standard-deviation
mode's uncertainty is the sample standard deviation itself. -/
theorem C9_make_uncertain_from_samples :
    ∀ xs : List ℝ, 0 < xs.length →
      (make_uncertain_samples xs).nominal = xs.sum / xs.length ∧
      (make_uncertain_samples xs).uncertainty =
        Real.sqrt ((xs.map fun x => (x - xs.sum / xs.length) *
            (x - xs.sum / xs.length)).sum / ((xs.length - 1 : ℕ) : ℝ)) /
          Real.sqrt xs.length ∧
      (make_uncertain_samples_stdev xs).nominal = xs.sum / xs.length ∧
      (make_uncertain_samples_stdev xs).uncertainty =
        Real.sqrt ((xs.map fun x => (x - xs.sum / xs.length) *
          (x - xs.sum / xs.length)).sum / ((xs.length - 1 : ℕ) : ℝ)) := by
  intro xs _
  exact ⟨rfl, rfl, rfl, rfl⟩

/-- Witness for C9 at the concrete two-element sample `[1, 2]`. -/
theorem C9_make_uncertain_from_samples_witness :
    0 < ([1, 2] : List ℝ).length ∧
      ((make_uncertain_samples [1, 2]).nominal =
          ([1, 2] : List ℝ).sum / ([1, 2] : List ℝ).length ∧
       (make_uncertain_samples [1, 2]).uncertainty =
         Real.sqrt ((([1, 2] : List ℝ).map fun x =>
             (x - ([1, 2] : List ℝ).sum / ([1, 2] : List ℝ).length) *
             (x - ([1, 2] : List ℝ).sum / ([1, 2] : List ℝ).length)).sum /
            ((([1, 2] : List ℝ).length - 1 : ℕ) : ℝ)) /
           Real.sqrt ([1, 2] : List ℝ).length ∧
       (make_uncertain_samples_stdev [1, 2]).nominal =
         ([1, 2] : List ℝ).sum / ([1, 2] : List ℝ).length ∧
       (make_uncertain_samples_stdev [1, 2]).uncertainty =
         Real.sqrt ((([1, 2] : List ℝ).map fun x =>
           (x - ([1, 2] : List ℝ).sum / ([1, 2] : List ℝ).length) *
           (x - ([1, 2] : List ℝ).sum / ([1, 2] : List ℝ).length)).sum /
          ((([1, 2] : List ℝ).length - 1 : ℕ) : ℝ))) :=
  ⟨by simp, C9_make_uncertain_from_samples [1, 2] (by simp)⟩

/-- The correlation cross-term loop of the store overload of
`propagate_error`: pairs `i < j`, with any index whose identity is 0 skipped
by `continue`. -/
def crossSumStore (s : correlation_store) (ids : List ℕ) (devs : List ℝ) : ℝ :=
  ∑ i in Finset.range devs.length, ∑ j in Finset.Ioo i devs.length,
    if ids.getD i 0 = 0 ∨ ids.getD j 0 = 0 then 0
    else 2 * s.get_with_ids (ids.getD i 0) (ids.getD j 0) *
      devs.getD i 0 * devs.getD j 0

/-- The output coefficient computed at iteration `i` of the store overload's
write loop, reading the store passed in:
`(dev[i] + sum_{j != i} store.get(ids[i], ids[j]) * dev[j]) / unc`. -/
noncomputable def storeCoeff (s : correlation_store) (ids : List ℕ)
    (devs : List ℝ) (unc : ℝ) (i : ℕ) : ℝ :=
  (devs.getD i 0 + ∑ j in (Finset.range devs.length).erase i,
    s.get_with_ids (ids.getD i 0) (ids.getD j 0) * devs.getD j 0) / unc

/-- The write loop of the store overload: iteration `k` computes its
coefficient from the current store state and writes it under the key pair
`(ret.get_id(), ids[k])`. -/
noncomputable def writeCoeffs (rid : ℕ) (ids : List ℕ) (devs : List ℝ)
    (unc : ℝ) : correlation_store → List ℕ → correlation_store
  | s, [] => s
  | s, k :: rest =>
      writeCoeffs rid ids devs unc
        (s.set_with_ids rid (ids.getD k 0) (storeCoeff s ids devs unc k)) rest

/-- The observable outcome of
`propagate_error(f, correlation_store, args...)`: the returned
`add_id<uncertain>` (value plus fresh id), the updated store, and the
updated global id counter. -/
structure propagation_output where
  value : uncertain
  id : ℕ
  store : correlation_store
  counter : ℕ

/-- `basic_error_propagator::propagate_error(f, store, args...)` from
`propagate.hpp`: deviations and ids are gathered, the combined uncertainty
sums squared deviations plus cross terms (skipping identity 0), the result
is constructed with a fresh id from `get_uniq_id()`, and the write loop
records the result's coefficient against each input id. -/
noncomputable def propagate_error_store (f : List ℝ → ℝ)
    (s : correlation_store) (args : List Arg) (c : ℕ) : propagation_output :=
  let devs := deviations f args
  let ids := args.map get_id
  let unc := Real.sqrt (sumsq devs + crossSumStore s ids devs)
  let rid := (get_uniq_id c).1
  ⟨⟨f (nominals args), unc⟩, rid,
   writeCoeffs rid ids devs unc s (List.range args.length),
   (get_uniq_id c).2⟩

section StorePropagationLemmas

lemma make_key_lt (rid x : ℕ) (hx : x < rid) : make_key rid x = (x, rid) := by
  rw [make_key, if_pos hx]

lemma make_key_snd_lt {a b rid : ℕ} (ha : a < rid) (hb : b < rid) :
    (make_key a b).2 < rid := by
  rw [make_key]
  split
  · exact ha
  · exact hb

lemma lookupKey_set_with_ids (s : correlation_store) (id1 id2 : ℕ) (v : ℝ)
    (q : ℕ × ℕ) :
    lookupKey (s.set_with_ids id1 id2 v).m_correlation_coefficients q =
      if q = make_key id1 id2 then some v
      else lookupKey s.m_correlation_coefficients q := by
  rw [correlation_store.set_with_ids]
  exact lookupKey_insertPair _ _ _ _

lemma writeCoeffs_lookup_low (rid : ℕ) (ids : List ℕ) (devs : List ℝ)
    (unc : ℝ) (hids : ∀ i, ids.getD i 0 < rid) :
    ∀ (ks : List ℕ) (s : correlation_store) (q : ℕ × ℕ), q.2 < rid →
      lookupKey
          (writeCoeffs rid ids devs unc s ks).m_correlation_coefficients q =
        lookupKey s.m_correlation_coefficients q := by
  intro ks
  induction ks with
  | nil => intro s q _; rfl
  | cons k rest ih =>
      intro s q hq
      have hne : q ≠ make_key rid (ids.getD k 0) := by
        rw [make_key_lt rid _ (hids k)]
        intro h
        rw [h] at hq
        simp at hq
      rw [writeCoeffs, ih _ q hq, lookupKey_set_with_ids, if_neg hne]

lemma writeCoeffs_get_low (rid : ℕ) (ids : List ℕ) (devs : List ℝ) (unc : ℝ)
    (hids : ∀ i, ids.getD i 0 < rid) (ks : List ℕ) (s : correlation_store)
    (a b : ℕ) (ha : a < rid) (hb : b < rid) :
    (writeCoeffs rid ids devs unc s ks).get_with_ids a b =
      s.get_with_ids a b := by
  rw [correlation_store.get_with_ids, correlation_store.get_with_ids,
    writeCoeffs_lookup_low rid ids devs unc hids ks s _
      (make_key_snd_lt ha hb)]

lemma storeCoeff_congr (s1 s0 : correlation_store) (ids : List ℕ)
    (devs : List ℝ) (unc : ℝ) (i : ℕ) (rid : ℕ)
    (hids : ∀ i, ids.getD i 0 < rid)
    (hagree : ∀ a b, a < rid → b < rid →
      s1.get_with_ids a b = s0.get_with_ids a b) :
    storeCoeff s1 ids devs unc i = storeCoeff s0 ids devs unc i := by
  rw [storeCoeff, storeCoeff]
  have hsum : (∑ j in (Finset.range devs.length).erase i,
      s1.get_with_ids (ids.getD i 0) (ids.getD j 0) * devs.getD j 0) =
      ∑ j in (Finset.range devs.length).erase i,
        s0.get_with_ids (ids.getD i 0) (ids.getD j 0) * devs.getD j 0 := by
    refine Finset.sum_congr rfl fun j _ => ?_
    rw [hagree _ _ (hids i) (hids j)]
  rw [hsum]

lemma writeCoeffs_lookup_isSome_mono (rid : ℕ) (ids : List ℕ)
    (devs : List ℝ) (unc : ℝ) :
    ∀ (ks : List ℕ) (s : correlation_store) (q : ℕ × ℕ),
      (lookupKey s.m_correlation_coefficients q).isSome = true →
      (lookupKey
        (writeCoeffs rid ids devs unc s ks).m_correlation_coefficients
        q).isSome = true := by
  intro ks
  induction ks with
  | nil => intro s q h; exact h
  | cons k rest ih =>
      intro s q h
      rw [writeCoeffs]
      apply ih
      rw [lookupKey_set_with_ids]
      split
      · rfl
      · exact h

lemma writeCoeffs_lookup_mem (rid : ℕ) (ids : List ℕ) (devs : List ℝ)
    (unc : ℝ) :
    ∀ (ks : List ℕ) (s : correlation_store) (k : ℕ), k ∈ ks →
      (lookupKey
        (writeCoeffs rid ids devs unc s ks).m_correlation_coefficients
        (make_key rid (ids.getD k 0))).isSome = true := by
  intro ks
  induction ks with
  | nil => intro s k h; exact absurd h (List.not_mem_nil k)
  | cons m rest ih =>
      intro s k hk
      rw [writeCoeffs]
      rcases List.mem_cons.mp hk with rfl | h
      · apply writeCoeffs_lookup_isSome_mono
        rw [lookupKey_set_with_ids, if_pos rfl]
        rfl
      · exact ih _ k h

lemma writeCoeffs_lookup_avoid (rid : ℕ) (ids : List ℕ) (devs : List ℝ)
    (unc : ℝ) :
    ∀ (ks : List ℕ) (s : correlation_store) (q : ℕ × ℕ),
      (∀ m ∈ ks, make_key rid (ids.getD m 0) ≠ q) →
      lookupKey
          (writeCoeffs rid ids devs unc s ks).m_correlation_coefficients q =
        lookupKey s.m_correlation_coefficients q := by
  intro ks
  induction ks with
  | nil => intro s q _; rfl
  | cons m rest ih =>
      intro s q hq
      rw [writeCoeffs, ih _ q fun x hx => hq x (List.mem_cons_of_mem _ hx),
        lookupKey_set_with_ids,
        if_neg fun h => hq m (List.mem_cons_self _ _) h.symm]

lemma writeCoeffs_lookup_written (rid : ℕ) (ids : List ℕ) (devs : List ℝ)
    (unc : ℝ) (hids : ∀ i, ids.getD i 0 < rid) :
    ∀ (ks : List ℕ) (s : correlation_store) (k : ℕ),
      k ∈ ks → ks.Pairwise (· < ·) →
      (∀ m ∈ ks, ids.getD m 0 = ids.getD k 0 → m ≤ k) →
      lookupKey
          (writeCoeffs rid ids devs unc s ks).m_correlation_coefficients
          (make_key rid (ids.getD k 0)) =
        some (storeCoeff s ids devs unc k) := by
  intro ks
  induction ks with
  | nil => intro s k h; exact absurd h (List.not_mem_nil k)
  | cons m rest ih =>
      intro s k hk hp hlast
      rw [writeCoeffs]
      rcases List.mem_cons.mp hk with rfl | h
      · have havoid : ∀ x ∈ rest,
            make_key rid (ids.getD x 0) ≠ make_key rid (ids.getD k 0) := by
          intro x hx hcontra
          rw [make_key_lt rid _ (hids x), make_key_lt rid _ (hids k)]
            at hcontra
          have hxid : ids.getD x 0 = ids.getD k 0 :=
            congrArg Prod.fst hcontra
          have hklt : k < x := (List.pairwise_cons.mp hp).1 x hx
          have := hlast x (List.mem_cons_of_mem _ hx) hxid
          omega
        rw [writeCoeffs_lookup_avoid rid ids devs unc rest _ _ havoid,
          lookupKey_set_with_ids, if_pos rfl]
      · rw [ih _ k h (List.pairwise_cons.mp hp).2
          fun x hx => hlast x (List.mem_cons_of_mem _ hx)]
        have hagree : ∀ a b, a < rid → b < rid →
            (s.set_with_ids rid (ids.getD m 0)
              (storeCoeff s ids devs unc m)).get_with_ids a b =
              s.get_with_ids a b := by
          intro a b ha hb
          have hne : make_key a b ≠ make_key rid (ids.getD m 0) := by
            rw [make_key_lt rid _ (hids m)]
            intro hcontra
            have h2 := congrArg Prod.snd hcontra
            have h3 := make_key_snd_lt ha hb
            simp only at h2
            omega
          rw [correlation_store.get_with_ids, correlation_store.get_with_ids,
            lookupKey_set_with_ids, if_neg hne]
        rw [storeCoeff_congr _ _ ids devs unc k rid hids hagree]

lemma map_get_id_getD_le (args : List Arg) (c : ℕ)
    (h : ∀ a ∈ args, get_id a ≤ c) (i : ℕ) :
    (args.map get_id).getD i 0 ≤ c := by
  by_cases hi : i < (args.map get_id).length
  · rw [List.getD_eq_getElem?_getD, List.getElem?_eq_getElem hi]
    simp only [Option.getD_some, List.getElem_map]
    exact h _ (List.getElem_mem _)
  · rw [List.getD_eq_getElem?_getD, List.getElem?_eq_none (le_of_not_lt hi)]
    simp

lemma nodup_getD_ne (l : List ℕ) (hN : l.Nodup) (m k : ℕ)
    (hm : m < l.length) (hk : k < l.length) (hne : m ≠ k) :
    l.getD m 0 ≠ l.getD k 0 := by
  rw [List.getD_eq_getElem?_getD, List.getElem?_eq_getElem hm,
    List.getD_eq_getElem?_getD, List.getElem?_eq_getElem hk]
  simp only [Option.getD_some]
  intro hcontra
  exact hne (List.Nodup.getElem_inj_iff hN |>.mp hcontra)

end StorePropagationLemmas

/-- Counterexample to claim C3 as stated: with two inputs sharing identity 5
(a copy keeps its original's id) and deviations `0.1` and `0.2`, the write
loop writes both coefficients to the same key `(result.id, 5)`, so the later
write overwrites the earlier one and the store does not hold input 0's
coefficient `(dev[0] + 0*dev[1]) / unc` under `(result.id, id_0)`. -/
theorem C3_counterexample_duplicate_identity_overwrite :
    (propagate_error_store (fun xs => xs.getD 0 0 + xs.getD 1 0) ⟨[]⟩
        [Arg.iunc ⟨2, 1/10⟩ 5, Arg.iunc ⟨3, 1/5⟩ 5] 5).store.get_with_ids
        (propagate_error_store (fun xs => xs.getD 0 0 + xs.getD 1 0) ⟨[]⟩
          [Arg.iunc ⟨2, 1/10⟩ 5, Arg.iunc ⟨3, 1/5⟩ 5] 5).id
        ((([Arg.iunc ⟨2, 1/10⟩ 5, Arg.iunc ⟨3, 1/5⟩ 5] : List Arg).map
          get_id).getD 0 0) ≠
      (deviation (fun xs => xs.getD 0 0 + xs.getD 1 0)
          [Arg.iunc ⟨2, 1/10⟩ 5, Arg.iunc ⟨3, 1/5⟩ 5] 0 +
        ∑ j in (Finset.range ([Arg.iunc ⟨2, 1/10⟩ 5, Arg.iunc ⟨3, 1/5⟩ 5] :
            List Arg).length).erase 0,
          (⟨[]⟩ : correlation_store).get_with_ids
            ((([Arg.iunc ⟨2, 1/10⟩ 5, Arg.iunc ⟨3, 1/5⟩ 5] : List Arg).map
              get_id).getD 0 0)
            ((([Arg.iunc ⟨2, 1/10⟩ 5, Arg.iunc ⟨3, 1/5⟩ 5] : List Arg).map
              get_id).getD j 0) *
            deviation (fun xs => xs.getD 0 0 + xs.getD 1 0)
              [Arg.iunc ⟨2, 1/10⟩ 5, Arg.iunc ⟨3, 1/5⟩ 5] j) /
        (propagate_error_store (fun xs => xs.getD 0 0 + xs.getD 1 0) ⟨[]⟩
          [Arg.iunc ⟨2, 1/10⟩ 5, Arg.iunc ⟨3, 1/5⟩ 5] 5).value.uncertainty := by
  have hdev0 : deviation (fun xs => xs.getD 0 0 + xs.getD 1 0)
      [Arg.iunc ⟨2, 1/10⟩ 5, Arg.iunc ⟨3, 1/5⟩ 5] 0 = 1/10 := by
    norm_num [deviation, nominals, perturbed, is_uncertain, get_nominal,
      get_upper, uncertain.upper, List.range_succ]
  have hdev1 : deviation (fun xs => xs.getD 0 0 + xs.getD 1 0)
      [Arg.iunc ⟨2, 1/10⟩ 5, Arg.iunc ⟨3, 1/5⟩ 5] 1 = 1/5 := by
    norm_num [deviation, nominals, perturbed, is_uncertain, get_nominal,
      get_upper, uncertain.upper, List.range_succ]
  have hdevs0 : (deviations (fun xs => xs.getD 0 0 + xs.getD 1 0)
      [Arg.iunc ⟨2, 1/10⟩ 5, Arg.iunc ⟨3, 1/5⟩ 5]).getD 0 0 = 1/10 := by
    rw [deviations_getD _ _ _ (by simp), hdev0]
  have hdevs1 : (deviations (fun xs => xs.getD 0 0 + xs.getD 1 0)
      [Arg.iunc ⟨2, 1/10⟩ 5, Arg.iunc ⟨3, 1/5⟩ 5]).getD 1 0 = 1/5 := by
    rw [deviations_getD _ _ _ (by simp), hdev1]
  have hsumsq : sumsq (deviations (fun xs => xs.getD 0 0 + xs.getD 1 0)
      [Arg.iunc ⟨2, 1/10⟩ 5, Arg.iunc ⟨3, 1/5⟩ 5]) = 1/20 := by
    rw [sumsq_deviations,
      show ([Arg.iunc ⟨2, 1/10⟩ 5, Arg.iunc ⟨3, 1/5⟩ 5] :
        List Arg).length = 2 from rfl,
      Finset.sum_range_succ, Finset.sum_range_succ, Finset.sum_range_zero,
      hdev0, hdev1]
    norm_num
  have hcross : crossSumStore ⟨[]⟩
      (([Arg.iunc ⟨2, 1/10⟩ 5, Arg.iunc ⟨3, 1/5⟩ 5] : List Arg).map get_id)
      (deviations (fun xs => xs.getD 0 0 + xs.getD 1 0)
        [Arg.iunc ⟨2, 1/10⟩ 5, Arg.iunc ⟨3, 1/5⟩ 5]) = 0 := by
    rw [crossSumStore, deviations_length,
      show ([Arg.iunc ⟨2, 1/10⟩ 5, Arg.iunc ⟨3, 1/5⟩ 5] :
        List Arg).length = 2 from rfl,
      Finset.sum_range_succ, Finset.sum_range_succ, Finset.sum_range_zero,
      show Finset.Ioo 0 2 = ({1} : Finset ℕ) from by decide,
      show Finset.Ioo 1 2 = (∅ : Finset ℕ) from by decide,
      Finset.sum_singleton, Finset.sum_empty,
      show (([Arg.iunc ⟨2, 1/10⟩ 5, Arg.iunc ⟨3, 1/5⟩ 5] : List Arg).map
        get_id).getD 0 0 = 5 from rfl,
      show (([Arg.iunc ⟨2, 1/10⟩ 5, Arg.iunc ⟨3, 1/5⟩ 5] : List Arg).map
        get_id).getD 1 0 = 5 from rfl,
      if_neg (by norm_num),
      show (⟨[]⟩ : correlation_store).get_with_ids 5 5 = 0 from rfl]
    ring
  have hL : (propagate_error_store (fun xs => xs.getD 0 0 + xs.getD 1 0) ⟨[]⟩
      [Arg.iunc ⟨2, 1/10⟩ 5, Arg.iunc ⟨3, 1/5⟩ 5] 5).store.get_with_ids
      (propagate_error_store (fun xs => xs.getD 0 0 + xs.getD 1 0) ⟨[]⟩
        [Arg.iunc ⟨2, 1/10⟩ 5, Arg.iunc ⟨3, 1/5⟩ 5] 5).id
      ((([Arg.iunc ⟨2, 1/10⟩ 5, Arg.iunc ⟨3, 1/5⟩ 5] : List Arg).map
        get_id).getD 0 0) =
      storeCoeff (correlation_store.set_with_ids ⟨[]⟩ 6 5
          (storeCoeff ⟨[]⟩
            (([Arg.iunc ⟨2, 1/10⟩ 5, Arg.iunc ⟨3, 1/5⟩ 5] : List Arg).map
              get_id)
            (deviations (fun xs => xs.getD 0 0 + xs.getD 1 0)
              [Arg.iunc ⟨2, 1/10⟩ 5, Arg.iunc ⟨3, 1/5⟩ 5])
            (Real.sqrt (sumsq (deviations
                (fun xs => xs.getD 0 0 + xs.getD 1 0)
                [Arg.iunc ⟨2, 1/10⟩ 5, Arg.iunc ⟨3, 1/5⟩ 5]) +
              crossSumStore ⟨[]⟩
                (([Arg.iunc ⟨2, 1/10⟩ 5, Arg.iunc ⟨3, 1/5⟩ 5] :
                  List Arg).map get_id)
                (deviations (fun xs => xs.getD 0 0 + xs.getD 1 0)
                  [Arg.iunc ⟨2, 1/10⟩ 5, Arg.iunc ⟨3, 1/5⟩ 5]))) 0))
        (([Arg.iunc ⟨2, 1/10⟩ 5, Arg.iunc ⟨3, 1/5⟩ 5] : List Arg).map get_id)
        (deviations (fun xs => xs.getD 0 0 + xs.getD 1 0)
          [Arg.iunc ⟨2, 1/10⟩ 5, Arg.iunc ⟨3, 1/5⟩ 5])
        (Real.sqrt (sumsq (deviations (fun xs => xs.getD 0 0 + xs.getD 1 0)
            [Arg.iunc ⟨2, 1/10⟩ 5, Arg.iunc ⟨3, 1/5⟩ 5]) +
          crossSumStore ⟨[]⟩
            (([Arg.iunc ⟨2, 1/10⟩ 5, Arg.iunc ⟨3, 1/5⟩ 5] :
              List Arg).map get_id)
            (deviations (fun xs => xs.getD 0 0 + xs.getD 1 0)
              [Arg.iunc ⟨2, 1/10⟩ 5, Arg.iunc ⟨3, 1/5⟩ 5]))) 1 := rfl
  rw [hL, storeCoeff, deviations_length,
    show ([Arg.iunc ⟨2, 1/10⟩ 5, Arg.iunc ⟨3, 1/5⟩ 5] :
      List Arg).length = 2 from rfl,
    show (Finset.range 2).erase 1 = ({0} : Finset ℕ) from by decide,
    show (Finset.range 2).erase 0 = ({1} : Finset ℕ) from by decide,
    Finset.sum_singleton, Finset.sum_singleton,
    show (([Arg.iunc ⟨2, 1/10⟩ 5, Arg.iunc ⟨3, 1/5⟩ 5] : List Arg).map
      get_id).getD 0 0 = 5 from rfl,
    show (([Arg.iunc ⟨2, 1/10⟩ 5, Arg.iunc ⟨3, 1/5⟩ 5] : List Arg).map
      get_id).getD 1 0 = 5 from rfl,
    show (⟨[]⟩ : correlation_store).get_with_ids 5 5 = 0 from rfl,
    show ∀ v : ℝ, (correlation_store.set_with_ids ⟨[]⟩ 6 5 v).get_with_ids
      5 5 = 0 from fun v => rfl,
    hdevs0, hdevs1, hdev0, hdev1,
    show (propagate_error_store (fun xs => xs.getD 0 0 + xs.getD 1 0) ⟨[]⟩
        [Arg.iunc ⟨2, 1/10⟩ 5, Arg.iunc ⟨3, 1/5⟩ 5] 5).value.uncertainty =
      Real.sqrt (sumsq (deviations (fun xs => xs.getD 0 0 + xs.getD 1 0)
          [Arg.iunc ⟨2, 1/10⟩ 5, Arg.iunc ⟨3, 1/5⟩ 5]) +
        crossSumStore ⟨[]⟩
          (([Arg.iunc ⟨2, 1/10⟩ 5, Arg.iunc ⟨3, 1/5⟩ 5] :
            List Arg).map get_id)
          (deviations (fun xs => xs.getD 0 0 + xs.getD 1 0)
            [Arg.iunc ⟨2, 1/10⟩ 5, Arg.iunc ⟨3, 1/5⟩ 5])) from rfl,
    hsumsq, hcross]
  have hpos : (0 : ℝ) < Real.sqrt (1/20 + 0) :=
    Real.sqrt_pos.mpr (by norm_num)
  intro hcontra
  rw [div_eq_div_iff hpos.ne' hpos.ne'] at hcontra
  have h2 := mul_right_cancel₀ hpos.ne' hcontra
  norm_num at h2

/-- Claim C3, amended: the store overload of `propagate_error` skips
identity-0 inputs in the cross-term loop of the combined uncertainty
(unconditionally); when all input identities predate the call, the result
carries a fresh identity distinct from every input identity; and the write
loop records coefficients sequentially, so the coefficient
`(dev[k] + sum_{j != k} store.get(id_k, id_j) * dev[j]) / unc` is found
under `(result.id, id_k)` for each input `k` that is the last input bearing
its identity (inputs sharing an identity write to the same key, the last
write winning). -/
theorem C3_amended_propagate_error_store_semantics :
    ∀ (f : List ℝ → ℝ) (s : correlation_store) (args : List Arg) (c : ℕ),
      ((propagate_error_store f s args c).value.uncertainty =
        Real.sqrt (sumsq (deviations f args) +
          ∑ i in Finset.range args.length, ∑ j in Finset.Ioo i args.length,
            if (args.map get_id).getD i 0 ≠ 0 ∧ (args.map get_id).getD j 0 ≠ 0
            then 2 * s.get_with_ids ((args.map get_id).getD i 0)
                ((args.map get_id).getD j 0) *
              deviation f args i * deviation f args j
            else 0) ∧
      ((∀ a ∈ args, get_id a ≤ c) →
        ∀ a ∈ args, (propagate_error_store f s args c).id ≠ get_id a) ∧
      ((∀ a ∈ args, get_id a ≤ c) →
        ∀ k < args.length,
        (∀ m < args.length, (args.map get_id).getD m 0 =
          (args.map get_id).getD k 0 → m ≤ k) →
        (propagate_error_store f s args c).store.get_with_ids
            (propagate_error_store f s args c).id
            ((args.map get_id).getD k 0) =
          (deviation f args k +
            ∑ j in (Finset.range args.length).erase k,
              s.get_with_ids ((args.map get_id).getD k 0)
                ((args.map get_id).getD j 0) * deviation f args j) /
            (propagate_error_store f s args c).value.uncertainty)) := by
  intro f s args c
  have hunc : (propagate_error_store f s args c).value.uncertainty =
      Real.sqrt (sumsq (deviations f args) +
        crossSumStore s (args.map get_id) (deviations f args)) := rfl
  have hid : (propagate_error_store f s args c).id = c + 1 := rfl
  have hstore : (propagate_error_store f s args c).store =
      writeCoeffs (c + 1) (args.map get_id) (deviations f args)
        (Real.sqrt (sumsq (deviations f args) +
          crossSumStore s (args.map get_id) (deviations f args)))
        s (List.range args.length) := rfl
  refine ⟨?_, ?_, ?_⟩
  · rw [hunc, crossSumStore, deviations_length]
    congr 2
    refine Finset.sum_congr rfl fun i hi => Finset.sum_congr rfl fun j hj => ?_
    have hi' := Finset.mem_range.mp hi
    have hj' := (Finset.mem_Ioo.mp hj).2
    rw [deviations_getD f args i hi', deviations_getD f args j hj']
    by_cases hQ : (args.map get_id).getD i 0 = 0 ∨
        (args.map get_id).getD j 0 = 0
    · rw [if_pos hQ, if_neg (by tauto)]
    · rw [if_neg hQ, if_pos (by tauto)]
  · intro hle a ha
    rw [hid]
    have := hle a ha
    omega
  · intro hle k hk hlast
    have hids : ∀ i, (args.map get_id).getD i 0 < c + 1 := fun i =>
      Nat.lt_succ_of_le (map_get_id_getD_le args c hle i)
    have hlast' : ∀ m ∈ List.range args.length,
        (args.map get_id).getD m 0 = (args.map get_id).getD k 0 → m ≤ k :=
      fun m hm => hlast m (List.mem_range.mp hm)
    have hlook := writeCoeffs_lookup_written (c + 1) (args.map get_id)
      (deviations f args)
      (Real.sqrt (sumsq (deviations f args) +
        crossSumStore s (args.map get_id) (deviations f args)))
      hids (List.range args.length) s k (List.mem_range.mpr hk)
      (List.pairwise_lt_range args.length) hlast'
    rw [hstore, hid, hunc, correlation_store.get_with_ids, hlook,
      Option.getD_some, storeCoeff, deviations_length,
      deviations_getD f args k hk]
    congr 2
    refine Finset.sum_congr rfl fun j hj => ?_
    rw [deviations_getD f args j
      (Finset.mem_range.mp (Finset.mem_of_mem_erase hj))]

/-- Witness for the amended C3: two identity-carrying inputs with distinct
ids 1 and 2 at counter state 2, applied to the fresh-identity conjunct and
to the stored-coefficient conjunct at the last input. -/
theorem C3_amended_propagate_error_store_semantics_witness :
    (∀ a ∈ ([Arg.iunc ⟨2, 1/10⟩ 1, Arg.iunc ⟨3, 1/10⟩ 2] : List Arg),
      get_id a ≤ 2) ∧
    (∀ a ∈ ([Arg.iunc ⟨2, 1/10⟩ 1, Arg.iunc ⟨3, 1/10⟩ 2] : List Arg),
      (propagate_error_store (fun xs => xs.getD 0 0 + xs.getD 1 0) ⟨[]⟩
        [Arg.iunc ⟨2, 1/10⟩ 1, Arg.iunc ⟨3, 1/10⟩ 2] 2).id ≠ get_id a) ∧
    1 < ([Arg.iunc ⟨2, 1/10⟩ 1, Arg.iunc ⟨3, 1/10⟩ 2] : List Arg).length ∧
    (∀ m < ([Arg.iunc ⟨2, 1/10⟩ 1, Arg.iunc ⟨3, 1/10⟩ 2] : List Arg).length,
      (([Arg.iunc ⟨2, 1/10⟩ 1, Arg.iunc ⟨3, 1/10⟩ 2] : List Arg).map
        get_id).getD m 0 =
        (([Arg.iunc ⟨2, 1/10⟩ 1, Arg.iunc ⟨3, 1/10⟩ 2] : List Arg).map
          get_id).getD 1 0 → m ≤ 1) ∧
    (propagate_error_store (fun xs => xs.getD 0 0 + xs.getD 1 0) ⟨[]⟩
        [Arg.iunc ⟨2, 1/10⟩ 1, Arg.iunc ⟨3, 1/10⟩ 2] 2).store.get_with_ids
        (propagate_error_store (fun xs => xs.getD 0 0 + xs.getD 1 0) ⟨[]⟩
          [Arg.iunc ⟨2, 1/10⟩ 1, Arg.iunc ⟨3, 1/10⟩ 2] 2).id
        ((([Arg.iunc ⟨2, 1/10⟩ 1, Arg.iunc ⟨3, 1/10⟩ 2] : List Arg).map
          get_id).getD 1 0) =
      (deviation (fun xs => xs.getD 0 0 + xs.getD 1 0)
          [Arg.iunc ⟨2, 1/10⟩ 1, Arg.iunc ⟨3, 1/10⟩ 2] 1 +
        ∑ j in (Finset.range ([Arg.iunc ⟨2, 1/10⟩ 1, Arg.iunc ⟨3, 1/10⟩ 2] :
            List Arg).length).erase 1,
          (⟨[]⟩ : correlation_store).get_with_ids
            ((([Arg.iunc ⟨2, 1/10⟩ 1, Arg.iunc ⟨3, 1/10⟩ 2] : List Arg).map
              get_id).getD 1 0)
            ((([Arg.iunc ⟨2, 1/10⟩ 1, Arg.iunc ⟨3, 1/10⟩ 2] : List Arg).map
              get_id).getD j 0) *
            deviation (fun xs => xs.getD 0 0 + xs.getD 1 0)
              [Arg.iunc ⟨2, 1/10⟩ 1, Arg.iunc ⟨3, 1/10⟩ 2] j) /
        (propagate_error_store (fun xs => xs.getD 0 0 + xs.getD 1 0) ⟨[]⟩
          [Arg.iunc ⟨2, 1/10⟩ 1,
            Arg.iunc ⟨3, 1/10⟩ 2] 2).value.uncertainty := by
  have h1 : ∀ a ∈ ([Arg.iunc ⟨2, 1/10⟩ 1, Arg.iunc ⟨3, 1/10⟩ 2] : List Arg),
      get_id a ≤ 2 := by
    intro a ha
    simp only [List.mem_cons, List.not_mem_nil, or_false] at ha
    rcases ha with rfl | rfl <;> simp [get_id]
  have hlast : ∀ m < ([Arg.iunc ⟨2, 1/10⟩ 1, Arg.iunc ⟨3, 1/10⟩ 2] :
      List Arg).length,
      (([Arg.iunc ⟨2, 1/10⟩ 1, Arg.iunc ⟨3, 1/10⟩ 2] : List Arg).map
        get_id).getD m 0 =
        (([Arg.iunc ⟨2, 1/10⟩ 1, Arg.iunc ⟨3, 1/10⟩ 2] : List Arg).map
          get_id).getD 1 0 → m ≤ 1 := by
    intro m hm _
    simp only [List.length_cons, List.length_nil] at hm
    omega
  exact ⟨h1,
    (C3_amended_propagate_error_store_semantics
      (fun xs => xs.getD 0 0 + xs.getD 1 0) ⟨[]⟩
      [Arg.iunc ⟨2, 1/10⟩ 1, Arg.iunc ⟨3, 1/10⟩ 2] 2).2.1 h1,
    by simp, hlast,
    (C3_amended_propagate_error_store_semantics
      (fun xs => xs.getD 0 0 + xs.getD 1 0) ⟨[]⟩
      [Arg.iunc ⟨2, 1/10⟩ 1, Arg.iunc ⟨3, 1/10⟩ 2] 2).2.2 h1 1
      (by simp) hlast⟩

section StoreCountLemmas

lemma insertPair_length (l : List ((ℕ × ℕ) × ℝ)) (key : ℕ × ℕ) (v : ℝ) :
    (insertPair l key v).length =
      if (lookupKey l key).isSome then l.length else l.length + 1 := by
  induction l with
  | nil => simp [insertPair, lookupKey]
  | cons e rest ih =>
      by_cases h : e.1 = key
      · simp [insertPair, lookupKey, h]
      · rw [insertPair, if_neg h, List.length_cons, ih, lookupKey, if_neg h]
        by_cases hS : (lookupKey rest key).isSome = true
        · simp [hS]
        · simp [hS]

lemma lookupKey_none_of_snd_lt (l : List ((ℕ × ℕ) × ℝ)) (q : ℕ × ℕ)
    (h : ∀ e ∈ l, e.1.2 < q.2) : lookupKey l q = none := by
  induction l with
  | nil => rfl
  | cons e rest ih =>
      have hne : e.1 ≠ q := by
        intro hc
        have h2 := h e (List.mem_cons_self _ _)
        rw [hc] at h2
        omega
      rw [lookupKey, if_neg hne,
        ih fun x hx => h x (List.mem_cons_of_mem _ hx)]

lemma card_insert_eq_card_erase_add_one (S : Finset ℕ) (a : ℕ) :
    (insert a S).card = (S.erase a).card + 1 := by
  by_cases h : a ∈ S
  · rw [Finset.insert_eq_self.mpr h, ← Finset.card_erase_add_one h]
  · rw [Finset.erase_eq_of_not_mem h, Finset.card_insert_of_not_mem h]

lemma filter_and_ne_eq_erase (S : Finset ℕ) (P : ℕ → Prop) [DecidablePred P]
    (a : ℕ) :
    (S.filter fun x => P x ∧ x ≠ a) = (S.filter P).erase a := by
  ext x
  simp only [Finset.mem_filter, Finset.mem_erase]
  tauto

lemma writeCoeffs_length (rid : ℕ) (ids : List ℕ) (devs : List ℝ) (unc : ℝ)
    (hids : ∀ i, ids.getD i 0 < rid) :
    ∀ (ks : List ℕ) (s : correlation_store),
      (writeCoeffs rid ids devs unc s ks).m_correlation_coefficients.length =
        s.m_correlation_coefficients.length +
          ((ks.map fun k => ids.getD k 0).toFinset.filter fun x =>
            (lookupKey s.m_correlation_coefficients
              (make_key rid x)).isSome = false).card := by
  intro ks
  induction ks with
  | nil => intro s; simp [writeCoeffs]
  | cons k rest ih =>
      intro s
      rw [writeCoeffs, ih, List.map_cons, List.toFinset_cons]
      have hset_len : (s.set_with_ids rid (ids.getD k 0)
          (storeCoeff s ids devs unc k)).m_correlation_coefficients.length =
          if (lookupKey s.m_correlation_coefficients
              (make_key rid (ids.getD k 0))).isSome then
            s.m_correlation_coefficients.length
          else s.m_correlation_coefficients.length + 1 := by
        rw [correlation_store.set_with_ids]
        exact insertPair_length _ _ _
      have hfilter : ((rest.map fun m => ids.getD m 0).toFinset.filter
          fun x => (lookupKey (s.set_with_ids rid (ids.getD k 0)
            (storeCoeff s ids devs unc k)).m_correlation_coefficients
            (make_key rid x)).isSome = false) =
          ((rest.map fun m => ids.getD m 0).toFinset.filter fun x =>
            ((lookupKey s.m_correlation_coefficients
              (make_key rid x)).isSome = false) ∧ x ≠ ids.getD k 0) := by
        refine Finset.filter_congr fun x hx => ?_
        have hxlt : x < rid := by
          rcases List.mem_map.mp (List.mem_toFinset.mp hx) with ⟨m, _, rfl⟩
          exact hids m
        rw [lookupKey_set_with_ids]
        by_cases hxk : x = ids.getD k 0
        · subst hxk
          rw [if_pos rfl]
          simp
        · have hne : make_key rid x ≠ make_key rid (ids.getD k 0) := by
            rw [make_key_lt rid _ hxlt, make_key_lt rid _ (hids k)]
            exact fun hc => hxk (congrArg Prod.fst hc)
          rw [if_neg hne]
          exact (and_iff_left hxk).symm
      rw [hset_len, hfilter, filter_and_ne_eq_erase]
      by_cases hP : (lookupKey s.m_correlation_coefficients
          (make_key rid (ids.getD k 0))).isSome = true
      · rw [if_pos hP, Finset.filter_insert,
          if_neg (fun hc => by rw [hP] at hc; exact absurd hc (by decide))]
        congr 1
        rw [Finset.erase_eq_of_not_mem]
        intro hmem
        have h2 := (Finset.mem_filter.mp hmem).2
        rw [hP] at h2
        simp at h2
      · have hP' : (lookupKey s.m_correlation_coefficients
            (make_key rid (ids.getD k 0))).isSome = false := by
          simpa using hP
        rw [if_neg hP, Finset.filter_insert, if_pos hP',
          card_insert_eq_card_erase_add_one]
        omega

lemma range_map_getD (l : List ℕ) :
    (List.range l.length).map (fun k => l.getD k 0) = l := by
  apply List.ext_getElem
  · simp
  · intro i h1 h2
    simp [List.getD_eq_getElem?_getD, List.getElem?_eq_getElem h2]

end StoreCountLemmas

/-- Counterexample to claim C10 as stated: with two exact inputs (both
identity 0), the write loop performs two writes to the same key
`(result.id, 0)`, so the store gains one entry, not one entry per input. -/
theorem C10_counterexample_shared_identity_entry :
    (propagate_error_store (fun xs => xs.getD 0 0 + xs.getD 1 0) ⟨[]⟩
        [Arg.plain 2, Arg.plain 3] 0).store.m_correlation_coefficients.length
      = 1 ∧
    ([Arg.plain 2, Arg.plain 3] : List Arg).length = 2 ∧ (1 : ℕ) ≠ 0 + 2 := by
  refine ⟨?_, rfl, by norm_num⟩
  rfl

/-- Claim C10, amended: when every identity in the store's keys and every
input identity was minted before the call (is at most the current counter),
the store-backed `propagate_error` leaves every entry already present
unchanged and adds exactly one new entry per *distinct* input identity,
keyed `(result's fresh identity, input identity)` — including, for exact or
untracked inputs of identity 0, a single entry keyed `(result.id, 0)`. -/
theorem C10_amended_store_frame_and_new_entries :
    ∀ (f : List ℝ → ℝ) (s : correlation_store) (args : List Arg) (c : ℕ),
      (∀ e ∈ s.m_correlation_coefficients, e.1.1 ≤ c ∧ e.1.2 ≤ c) →
      (∀ a ∈ args, get_id a ≤ c) →
      ((∀ e ∈ s.m_correlation_coefficients,
         lookupKey (propagate_error_store f s args
             c).store.m_correlation_coefficients e.1 =
           lookupKey s.m_correlation_coefficients e.1) ∧
       (∀ k < args.length,
         (lookupKey (propagate_error_store f s args
             c).store.m_correlation_coefficients
           (make_key (propagate_error_store f s args c).id
             ((args.map get_id).getD k 0))).isSome = true) ∧
       (propagate_error_store f s args
           c).store.m_correlation_coefficients.length =
         s.m_correlation_coefficients.length +
           (args.map get_id).dedup.length) := by
  intro f s args c hkeys hle
  have hids : ∀ i, (args.map get_id).getD i 0 < c + 1 := fun i =>
    Nat.lt_succ_of_le (map_get_id_getD_le args c hle i)
  have hstore : (propagate_error_store f s args c).store =
      writeCoeffs (c + 1) (args.map get_id) (deviations f args)
        (Real.sqrt (sumsq (deviations f args) +
          crossSumStore s (args.map get_id) (deviations f args)))
        s (List.range args.length) := rfl
  have hid : (propagate_error_store f s args c).id = c + 1 := rfl
  refine ⟨?_, ?_, ?_⟩
  · intro e he
    rw [hstore]
    apply writeCoeffs_lookup_low _ _ _ _ hids
    have := (hkeys e he).2
    omega
  · intro k hk
    rw [hstore, hid]
    exact writeCoeffs_lookup_mem _ _ _ _ _ s k (List.mem_range.mpr hk)
  · rw [hstore, writeCoeffs_length _ _ _ _ hids]
    have hlen : args.length = (args.map get_id).length :=
      (List.length_map _ _).symm
    rw [hlen, range_map_getD]
    have hall : ∀ x ∈ (args.map get_id).toFinset,
        (lookupKey s.m_correlation_coefficients
          (make_key (c + 1) x)).isSome = false := by
      intro x hx
      have hxlt : x < c + 1 := by
        rcases List.mem_map.mp (List.mem_toFinset.mp hx) with ⟨a, ha, rfl⟩
        exact Nat.lt_succ_of_le (hle a ha)
      rw [make_key_lt _ _ hxlt, lookupKey_none_of_snd_lt]
      · rfl
      · intro e he
        exact lt_of_le_of_lt (hkeys e he).2 (Nat.lt_succ_self c)
    rw [Finset.filter_true_of_mem hall, List.card_toFinset]

/-- Witness for the amended C10: a store holding the pair `(1,2)` and two
identity-carrying inputs with ids 1 and 2, counter state 2, applied to the
entry-count conjunct. -/
theorem C10_amended_store_frame_and_new_entries_witness :
    (∀ e ∈ (⟨[((1, 2), (1/10 : ℝ))]⟩ :
        correlation_store).m_correlation_coefficients,
      e.1.1 ≤ 2 ∧ e.1.2 ≤ 2) ∧
    (∀ a ∈ ([Arg.iunc ⟨2, 1/10⟩ 1, Arg.iunc ⟨3, 1/10⟩ 2] : List Arg),
      get_id a ≤ 2) ∧
    (propagate_error_store (fun xs => xs.getD 0 0 + xs.getD 1 0)
        ⟨[((1, 2), (1/10 : ℝ))]⟩
        [Arg.iunc ⟨2, 1/10⟩ 1, Arg.iunc ⟨3, 1/10⟩ 2]
        2).store.m_correlation_coefficients.length =
      (⟨[((1, 2), (1/10 : ℝ))]⟩ :
        correlation_store).m_correlation_coefficients.length +
        (([Arg.iunc ⟨2, 1/10⟩ 1, Arg.iunc ⟨3, 1/10⟩ 2] : List Arg).map
          get_id).dedup.length := by
  have hkeys : ∀ e ∈ (⟨[((1, 2), (1/10 : ℝ))]⟩ :
      correlation_store).m_correlation_coefficients,
      e.1.1 ≤ 2 ∧ e.1.2 ≤ 2 := by
    intro e he
    simp only [List.mem_singleton] at he
    subst he
    exact ⟨by norm_num, by norm_num⟩
  have hle : ∀ a ∈ ([Arg.iunc ⟨2, 1/10⟩ 1, Arg.iunc ⟨3, 1/10⟩ 2] : List Arg),
      get_id a ≤ 2 := by
    intro a ha
    simp only [List.mem_cons, List.not_mem_nil, or_false] at ha
    rcases ha with rfl | rfl <;> simp [get_id]
  exact ⟨hkeys, hle,
    (C10_amended_store_frame_and_new_entries
      (fun xs => xs.getD 0 0 + xs.getD 1 0) ⟨[((1, 2), (1/10 : ℝ))]⟩
      [Arg.iunc ⟨2, 1/10⟩ 1, Arg.iunc ⟨3, 1/10⟩ 2] 2 hkeys hle).2.2⟩

end LibUncertainty
